import Mathlib

/-!
Verification of the flat-record binary store and the grading/aggregation
engine of the UIU University Management System (`uiu_ums.c`).

The embedding has two layers:

* A byte-level model of the file helpers (`file_count_records`,
  `file_read_at`, `file_write_at`, `file_append`, `file_find_first`).
  A backing file is a `FileState`: `absent` (the file does not exist, so
  `fopen` fails), `unreadable` (the file exists but `fopen` fails anyway,
  e.g. a permission error), or `present bytes`.  Records are byte lists;
  `recSize` is the fixed record width.

* A typed model of the domain logic: stores are lists of decoded records
  (`Student`, `Course`, `Enrollment`), strings are `String`, and the
  C `float` quantities (credits, grade points) are modelled as exact
  rationals `ℚ`; no claim under scrutiny depends on float rounding.
-/

namespace UMS

/-- State of a backing file as seen through `fopen`. -/
inductive FileState : Type
| absent : FileState
| unreadable : FileState
| present : List Nat → FileState
deriving DecidableEq

/-- `file_count_records` (uiu_ums.c:178-187): opens the file read-only;
if `fopen` fails it returns 0; otherwise seeks to the end and returns
`bytes / recSize` (integer division). -/
def file_count_records (fs : FileState) (recSize : Nat) : Nat :=
match fs with
| .present bs => bs.length / recSize
| _ => 0

/-- `file_read_at` (uiu_ums.c:216-229): opens read-only (failure → 0),
seeks to `index * recSize` and `fread`s one full record; the read
succeeds exactly when a full `recSize` bytes are available at that
offset. -/
def file_read_at (fs : FileState) (recSize : Nat) (index : Nat) :
    Option (List Nat) :=
match fs with
| .present bs =>
  if (index + 1) * recSize ≤ bs.length then
    some ((bs.drop (index * recSize)).take recSize)
  else none
| _ => none

/-- Byte-level effect of `fwrite` at an absolute offset in `rb+` mode:
bytes before the offset are kept, a gap past end-of-file is zero-filled
(POSIX seek-past-EOF semantics), the record bytes are written, and any
bytes after the written region are kept. -/
def writeBytesAt (bs : List Nat) (off : Nat) (rec : List Nat) : List Nat :=
bs.take off ++ List.replicate (off - bs.length) 0 ++ rec ++ bs.drop (off + rec.length)

/-- `file_write_at` (uiu_ums.c:231-249): first opens `rb` as an existence
check (failure → 0), then reopens `rb+`, seeks to `index * recSize` and
writes the record.  There is no bounds check: the seek and write succeed
at any offset, extending the file when the offset is at or past the end. -/
def file_write_at (fs : FileState) (recSize : Nat) (index : Nat)
    (rec : List Nat) : Option FileState :=
match fs with
| .present bs => some (.present (writeBytesAt bs (index * recSize) rec))
| _ => none

/-- `file_append` (uiu_ums.c:251-260): opens in `ab` mode (creating the
file when absent), writes the record at the end and returns the C `int`
result of `fwrite(...) == 1`: `1` on success, `0` on failure. -/
def file_append (fs : FileState) (rec : List Nat) : Nat × FileState :=
match fs with
| .absent => (1, .present rec)
| .present bs => (1, .present (bs ++ rec))
| .unreadable => (0, .unreadable)

/-- The sequence of complete `recSize`-byte records at the front of a
byte list; a truncated partial tail contributes nothing.  This is the
sequence of successful `fread(buf, recSize, 1, fp)` results. -/
def chunksOf (recSize : Nat) (bs : List Nat) : List (List Nat) :=
if _h : 0 < recSize ∧ recSize ≤ bs.length then
  bs.take recSize :: chunksOf recSize (bs.drop recSize)
else []
termination_by bs.length
decreasing_by
  simp only [List.length_drop]
  omega

/-- Index-tracking scan used by `file_find_first`. -/
def findFirstAux (pred : List Nat → Bool) :
    Nat → List (List Nat) → Option (Nat × List Nat)
| _, [] => none
| i, r :: rest => if pred r then some (i, r) else findFirstAux pred (i + 1) rest

/-- `file_find_first` (uiu_ums.c:192-214): opens read-only (failure →
-1, modelled as `none`), then `fread`s complete records one at a time,
returning the index and bytes of the first record satisfying the
predicate; the loop stops as soon as a full record can no longer be
read, so only the complete records `chunksOf recSize bs` are ever
tested. -/
def file_find_first (fs : FileState) (recSize : Nat)
    (pred : List Nat → Bool) : Option (Nat × List Nat) :=
match fs with
| .present bs => findFirstAux pred 0 (chunksOf recSize bs)
| _ => none

/-! ## Typed domain layer -/

/-- `Student` record (uiu_ums.c:58-65); fixed-width char slots become
`String`, `int batch` becomes `Int`. -/
structure Student : Type where
  id : String
  name : String
  dept : String
  batch : Int
  email : String
deriving DecidableEq

/-- `Course` record (uiu_ums.c:75-82); `float credit` is modelled as an
exact rational. -/
structure Course : Type where
  code : String
  title : String
  credit : ℚ
  dept : String
  instructorId : String
deriving DecidableEq

/-- `Enrollment` record (uiu_ums.c:84-90). -/
structure Enrollment : Type where
  studentId : String
  courseCode : String
  term : String
  grade : String
deriving DecidableEq

/-- `grade_to_points` (uiu_ums.c:301-326): a chain of `strcmp` tests over
the fixed grade table; every other symbol falls through to the invalid
sentinel `-1.0`. -/
def grade_to_points (g : String) : ℚ :=
if g = "A" then 4
else if g = "A-" then 37/10
else if g = "B+" then 33/10
else if g = "B" then 3
else if g = "B-" then 27/10
else if g = "C+" then 23/10
else if g = "C" then 2
else if g = "C-" then 17/10
else if g = "D" then 1
else if g = "F" then 0
else -1

/-- Outcome of an `add` CRUD operation. -/
inductive AddResult : Type
| added : AddResult
| duplicateKey : AddResult
deriving DecidableEq

/-- `add_student` (uiu_ums.c:350-367) restricted to its store effect: a
`file_find_first` scan with `pred_student_by_id` (uiu_ums.c:263-268)
rejects a duplicate id and leaves the store untouched; otherwise the
record is appended. -/
def add_student (store : List Student) (s : Student) :
    AddResult × List Student :=
if store.any (fun r => r.id = s.id) then (.duplicateKey, store)
else (.added, store ++ [s])

/-- `add_course` (uiu_ums.c:450-467) restricted to its store effect: a
`file_find_first` scan with `pred_course_by_code` (uiu_ums.c:275-280)
rejects a duplicate code and leaves the store untouched; otherwise the
record is appended. -/
def add_course (store : List Course) (c : Course) :
    AddResult × List Course :=
if store.any (fun r => r.code = c.code) then (.duplicateKey, store)
else (.added, store ++ [c])

/-- Outcome of `enroll_student`. -/
inductive EnrollResult : Type
| enrolled : EnrollResult
| studentNotFound : EnrollResult
| courseNotFound : EnrollResult
| alreadyEnrolled : EnrollResult
deriving DecidableEq

/-- `enroll_student` (uiu_ums.c:508-539) restricted to its store effect:
the student id must resolve in the student store, the course code in the
course store, the grade is initialised to `"NA"`, and a
`pred_enr_by_key` (uiu_ums.c:293-298) scan — equality on all three of
(studentId, courseCode, term) — rejects a duplicate; only then is the
enrollment appended. -/
def enroll_student (students : List Student) (courses : List Course)
    (enrs : List Enrollment) (sid code term : String) :
    EnrollResult × List Enrollment :=
if ¬ students.any (fun r => r.id = sid) then (.studentNotFound, enrs)
else if ¬ courses.any (fun r => r.code = code) then (.courseNotFound, enrs)
else if enrs.any (fun e =>
    e.studentId = sid ∧ e.courseCode = code ∧ e.term = term) then
  (.alreadyEnrolled, enrs)
else (.enrolled, enrs ++ [⟨sid, code, term, "NA"⟩])

/-- Course lookup by code: `file_find_first` with `pred_course_by_code`
returns the first (oldest) record whose code matches. -/
def findCourse (courses : List Course) (code : String) : Option Course :=
courses.find? (fun c => c.code = code)

/-- One iteration of the transcript loop (uiu_ums.c:586-604): an
enrollment contributes `(credit, points * credit)` to the running
`(totalCred, totalPts)` exactly when it belongs to the student, its
course resolves, and its grade maps to a non-negative point value
(`pts >= 0`). -/
def transcriptStep (courses : List Course) (sid : String)
    (acc : ℚ × ℚ) (e : Enrollment) : ℚ × ℚ :=
if e.studentId = sid then
  match findCourse courses e.courseCode with
  | some c =>
    if 0 ≤ grade_to_points e.grade then
      (acc.1 + c.credit, acc.2 + grade_to_points e.grade * c.credit)
    else acc
  | none => acc
else acc

/-- The accumulated `(totalCred, totalPts)` of `transcript_for_student`
over the enrollment store in file order. -/
def transcriptTotals (courses : List Course) (enrs : List Enrollment)
    (sid : String) : ℚ × ℚ :=
enrs.foldl (transcriptStep courses sid) (0, 0)

/-- Reportable CGPA outcome of a transcript. -/
inductive CgpaResult : Type
| cgpa : ℚ → CgpaResult
| noGradedCredits : CgpaResult
deriving DecidableEq

/-- `transcript_for_student` (uiu_ums.c:573-614) restricted to its CGPA
result: `totalPts / totalCred` when `totalCred > 0`, and the distinct
"No graded credits yet." state otherwise. -/
def transcript_for_student (courses : List Course) (enrs : List Enrollment)
    (sid : String) : CgpaResult :=
let t := transcriptTotals courses enrs sid
if 0 < t.1 then .cgpa (t.2 / t.1) else .noGradedCredits

/-! ## Term GPA leaderboard -/

/-- Per-student accumulator of `gpa_leaderboard` (the local `Acc` struct,
uiu_ums.c:653-658). -/
structure GpaAcc : Type where
  sid : String
  pts : ℚ
  cred : ℚ
deriving DecidableEq

/-- The GPA the leaderboard computes from an accumulator
(uiu_ums.c:697-698, 709): `pts / cred` when `cred > 0`, else 0. -/
def gpaOf (a : GpaAcc) : ℚ :=
if 0 < a.cred then a.pts / a.cred else 0

/-- The find-first-by-sid-or-append-then-add step of the leaderboard
accumulation loop (uiu_ums.c:672-688): the first accumulator whose sid
matches is bumped by `(dp, dc)`; if none matches, a fresh accumulator is
appended (initialised to zero and immediately bumped). -/
def bumpFirst : List GpaAcc → String → ℚ → ℚ → List GpaAcc
| [], sid, dp, dc => [⟨sid, dp, dc⟩]
| a :: rest, sid, dp, dc =>
  if a.sid = sid then ⟨a.sid, a.pts + dp, a.cred + dc⟩ :: rest
  else a :: bumpFirst rest sid dp dc

/-- One iteration of the leaderboard scan (uiu_ums.c:663-691): an
enrollment is considered when its term matches and its course resolves;
an invalid grade (`gp < 0`) is skipped; otherwise the student's
accumulator gains `(gp * credit, credit)`. -/
def leaderboardStep (courses : List Course) (term : String)
    (accs : List GpaAcc) (e : Enrollment) : List GpaAcc :=
if e.term = term then
  match findCourse courses e.courseCode with
  | some c =>
    if grade_to_points e.grade < 0 then accs
    else bumpFirst accs e.studentId (grade_to_points e.grade * c.credit) c.credit
  | none => accs
else accs

/-- The accumulator list after the full enrollment scan, in first-seen
order. -/
def leaderboardAccum (courses : List Course) (enrs : List Enrollment)
    (term : String) : List GpaAcc :=
enrs.foldl (leaderboardStep courses term) []

/-- One left-to-right sweep of the bubble sort (the inner `j` loop,
uiu_ums.c:695-705): adjacent accumulators are swapped when the right one
has strictly greater GPA, so the larger of each pair is kept and the
smaller is carried rightward. -/
def bubblePass : List GpaAcc → List GpaAcc
| a :: b :: rest =>
  if gpaOf a < gpaOf b then b :: bubblePass (a :: rest)
  else a :: bubblePass (b :: rest)
| l => l
termination_by l => l.length

/-- `gpa_leaderboard` (uiu_ums.c:644-720) restricted to its ranked
accumulator list: the scan builds the accumulators, then the outer `i`
loop (uiu_ums.c:694) runs the sweep once per accumulator. -/
def gpa_leaderboard (courses : List Course) (enrs : List Enrollment)
    (term : String) : List GpaAcc :=
let accs := leaderboardAccum courses enrs term
bubblePass^[accs.length] accs

/-! ## Password obfuscation -/

/-- `MAX_PASS` (uiu_ums.c:42). -/
def MAX_PASS : Nat := 32

/-- The rotating XOR salt `SALT` (uiu_ums.c:101). -/
def SALT : List Nat := [0x55, 0x2A, 0x11, 0xC3, 0x7E, 0x90, 0x04, 0xD1]

/-- `obfuscate` (uiu_ums.c:103-112): byte `i` of the fixed 32-byte output
is `p ^ SALT[i % 8]`, where `p` is the `i`-th plaintext byte when
`i < strlen(plain)` and `0` otherwise. -/
def obfuscate (plain : List Nat) : List Nat :=
(List.range MAX_PASS).map (fun i => (plain.getD i 0) ^^^ (SALT.getD (i % 8) 0))

/-- `verify_pass` (uiu_ums.c:114-119): obfuscate the candidate and
`memcmp` all 32 bytes against the stored buffer. -/
def verify_pass (obf : List Nat) (tryPass : List Nat) : Bool :=
obfuscate tryPass = obf

/-- The first 32 bytes of the zero-padded plaintext — the only part of
the plaintext `obfuscate` can see. -/
def zeroPad32 (plain : List Nat) : List Nat :=
(plain ++ List.replicate MAX_PASS 0).take MAX_PASS

/-! Helper lemmas about complete-record chunking. -/

theorem chunksOf_eq_nil (w : Nat) (bs : List Nat) (h : bs.length < w) :
    chunksOf w bs = [] := by
  rw [chunksOf, dif_neg]
  omega

theorem chunksOf_eq_cons (w : Nat) (bs : List Nat) (hw : 0 < w)
    (h : w ≤ bs.length) :
    chunksOf w bs = bs.take w :: chunksOf w (bs.drop w) := by
  rw [chunksOf, dif_pos ⟨hw, h⟩]

theorem chunksOf_length (w : Nat) (hw : 0 < w) :
    ∀ bs : List Nat, (chunksOf w bs).length = bs.length / w := by
  intro bs
  induction bs using chunksOf.induct w with
  | case1 bs h ih =>
    rw [chunksOf_eq_cons w bs hw h.2, List.length_cons, ih, List.length_drop,
      Nat.div_eq_sub_div hw h.2]
  | case2 bs h =>
    have hlt : bs.length < w := by omega
    rw [chunksOf_eq_nil w bs hlt, List.length_nil,
      Nat.div_eq_of_lt hlt]

theorem chunksOf_getD (w : Nat) (hw : 0 < w) :
    ∀ (bs : List Nat) (i : Nat), i < bs.length / w →
      (chunksOf w bs).getD i [] = (bs.drop (i * w)).take w := by
  intro bs
  induction bs using chunksOf.induct w with
  | case1 bs h ih =>
    intro i hi
    rw [chunksOf_eq_cons w bs hw h.2]
    match i with
    | 0 => simp
    | j + 1 =>
      have hj : j < (bs.drop w).length / w := by
        rw [List.length_drop]
        have := Nat.div_eq_sub_div hw h.2
        omega
      show (chunksOf w (bs.drop w)).getD j [] = _
      rw [ih j hj, List.drop_drop]
      congr 1
      rw [Nat.succ_mul, Nat.add_comm]
  | case2 bs h =>
    intro i hi
    have hlt : bs.length < w := by omega
    rw [Nat.div_eq_of_lt hlt] at hi
    omega

theorem findFirstAux_some (pred : List Nat → Bool) :
    ∀ (l : List (List Nat)) (i0 i : Nat) (r : List Nat),
      findFirstAux pred i0 l = some (i, r) →
      ∃ j, j < l.length ∧ i = i0 + j ∧ l.getD j [] = r ∧ pred r = true := by
  intro l
  induction l with
  | nil =>
    intro i0 i r h
    simp [findFirstAux] at h
  | cons a t ih =>
    intro i0 i r h
    rw [findFirstAux] at h
    by_cases hp : pred a
    · rw [if_pos hp] at h
      have hir : i0 = i ∧ a = r := by simpa using h
      exact ⟨0, by simp, by omega, hir.2, hir.2 ▸ hp⟩
    · rw [if_neg hp] at h
      obtain ⟨j, hj, rfl, hget, hpr⟩ := ih (i0 + 1) i r h
      exact ⟨j + 1, by simpa using hj, by omega, hget, hpr⟩

/-- Key uniqueness for the student store: pairwise distinct ids. -/
def studentIdsUnique (store : List Student) : Prop :=
store.Pairwise (fun a b => a.id ≠ b.id)

/-- Key uniqueness for the course store: pairwise distinct codes. -/
def courseCodesUnique (store : List Course) : Prop :=
store.Pairwise (fun a b => a.code ≠ b.code)

theorem add_student_preserves (store : List Student) (s : Student)
    (h : studentIdsUnique store) : studentIdsUnique (add_student store s).2 := by
  unfold add_student
  by_cases hdup : store.any (fun r => r.id = s.id)
  · rw [if_pos hdup]
    exact h
  · rw [if_neg hdup]
    show studentIdsUnique (store ++ [s])
    unfold studentIdsUnique at h ⊢
    rw [List.pairwise_append]
    refine ⟨h, List.pairwise_singleton _ _, ?_⟩
    intro a ha b hb
    simp only [List.mem_singleton] at hb
    subst hb
    simp only [List.any_eq_true, decide_eq_true_eq, not_exists] at hdup
    exact fun hab => hdup a ⟨ha, hab⟩

theorem add_course_preserves (store : List Course) (c : Course)
    (h : courseCodesUnique store) : courseCodesUnique (add_course store c).2 := by
  unfold add_course
  by_cases hdup : store.any (fun r => r.code = c.code)
  · rw [if_pos hdup]
    exact h
  · rw [if_neg hdup]
    show courseCodesUnique (store ++ [c])
    unfold courseCodesUnique at h ⊢
    rw [List.pairwise_append]
    refine ⟨h, List.pairwise_singleton _ _, ?_⟩
    intro a ha b hb
    simp only [List.mem_singleton] at hb
    subst hb
    simp only [List.any_eq_true, decide_eq_true_eq, not_exists] at hdup
    exact fun hab => hdup a ⟨ha, hab⟩

/-- An enrollment that contributes to the transcript accumulation: it
belongs to the student, its course resolves, and its grade is valid. -/
def transcriptRelevant (courses : List Course) (sid : String)
    (e : Enrollment) : Prop :=
e.studentId = sid ∧ (findCourse courses e.courseCode).isSome ∧
  0 ≤ grade_to_points e.grade

instance (courses : List Course) (sid : String) (e : Enrollment) :
    Decidable (transcriptRelevant courses sid e) := by
  unfold transcriptRelevant
  infer_instance

/-- The credit of an enrollment's course (0 when the course is
unresolvable; such enrollments never contribute). -/
def creditOf (courses : List Course) (e : Enrollment) : ℚ :=
match findCourse courses e.courseCode with
| some c => c.credit
| none => 0

theorem transcriptStep_relevant (courses : List Course) (sid : String)
    (acc : ℚ × ℚ) (e : Enrollment) (hrel : transcriptRelevant courses sid e) :
    transcriptStep courses sid acc e =
      (acc.1 + creditOf courses e,
       acc.2 + grade_to_points e.grade * creditOf courses e) := by
  obtain ⟨h1, h2, h3⟩ := hrel
  obtain ⟨c, hc⟩ := Option.isSome_iff_exists.mp h2
  unfold transcriptStep creditOf
  rw [if_pos h1, hc]
  simp only [if_pos h3]

theorem transcriptStep_irrelevant (courses : List Course) (sid : String)
    (acc : ℚ × ℚ) (e : Enrollment)
    (hrel : ¬ transcriptRelevant courses sid e) :
    transcriptStep courses sid acc e = acc := by
  unfold transcriptStep
  by_cases h1 : e.studentId = sid
  · rw [if_pos h1]
    match hfc : findCourse courses e.courseCode with
    | some c =>
      have h3 : ¬ 0 ≤ grade_to_points e.grade := by
        intro h3
        exact hrel ⟨h1, by simp [hfc], h3⟩
      simp only [if_neg h3]
    | none => rfl
  · rw [if_neg h1]

theorem transcriptTotals_spec (courses : List Course) (sid : String) :
    ∀ (enrs : List Enrollment) (acc : ℚ × ℚ),
      enrs.foldl (transcriptStep courses sid) acc =
        (acc.1 + ((enrs.filter
            (fun e => transcriptRelevant courses sid e)).map
            (creditOf courses)).sum,
         acc.2 + ((enrs.filter
            (fun e => transcriptRelevant courses sid e)).map
            (fun e => grade_to_points e.grade * creditOf courses e)).sum) := by
  intro enrs
  induction enrs with
  | nil =>
    intro acc
    simp
  | cons e t ih =>
    intro acc
    rw [List.foldl_cons, ih]
    by_cases hrel : transcriptRelevant courses sid e
    · rw [List.filter_cons_of_pos (by simpa using hrel),
        transcriptStep_relevant courses sid acc e hrel]
      simp only [List.map_cons, List.sum_cons]
      simp [add_assoc]
    · rw [List.filter_cons_of_neg (by simpa using hrel),
        transcriptStep_irrelevant courses sid acc e hrel]

/-- The ten grade symbols of the fixed table. -/
def validGrades : List String :=
["A", "A-", "B+", "B", "B-", "C+", "C", "C-", "D", "F"]

/-! ## Theorems -/

/-- C2: `grade_to_points` is exactly the fixed table A=4.00, A-=3.70,
B+=3.30, B=3.00, B-=2.70, C+=2.30, C=2.00, C-=1.70, D=1.00, F=0.00; every
other symbol — including the ungraded sentinel "NA" — yields the invalid
sentinel `-1`, which differs from the valid `0` returned for F. -/
theorem claim_C2 :
    (grade_to_points "A" = 4 ∧ grade_to_points "A-" = 37/10 ∧
     grade_to_points "B+" = 33/10 ∧ grade_to_points "B" = 3 ∧
     grade_to_points "B-" = 27/10 ∧ grade_to_points "C+" = 23/10 ∧
     grade_to_points "C" = 2 ∧ grade_to_points "C-" = 17/10 ∧
     grade_to_points "D" = 1 ∧ grade_to_points "F" = 0) ∧
    (∀ g : String, g ∉ validGrades → grade_to_points g = -1) ∧
    "NA" ∉ validGrades ∧ "Z" ∉ validGrades ∧
    grade_to_points "NA" ≠ grade_to_points "F" := by
  have hcatch : ∀ g : String, g ∉ validGrades → grade_to_points g = -1 := by
    intro g hg
    simp only [validGrades, List.mem_cons, List.not_mem_nil, or_false, not_or] at hg
    obtain ⟨h1, h2, h3, h4, h5, h6, h7, h8, h9, h10⟩ := hg
    simp [grade_to_points, h1, h2, h3, h4, h5, h6, h7, h8, h9, h10]
  refine ⟨⟨?_, ?_, ?_, ?_, ?_, ?_, ?_, ?_, ?_, ?_⟩, hcatch, by decide, by decide, ?_⟩
  all_goals simp [grade_to_points]

/-- C2 witness: the theorem applied at the concrete out-of-table symbol
"Z". -/
theorem claim_C2_witness :
    ("Z" : String) ∉ validGrades ∧ grade_to_points "Z" = -1 :=
⟨by decide, claim_C2.2.1 "Z" (by decide)⟩

/-- C8 counterexample: when the file exists but cannot be opened,
`file_count_records` returns the plain value `0` — exactly the value
returned for a store that has never been written — rather than any
distinct `IOFault` outcome (the C function's only failure behaviour is
`if (!fp) return 0`). -/
theorem claim_C8_counterexample :
    file_count_records FileState.unreadable 152 = 0 ∧
    file_count_records FileState.absent 152 = 0 :=
⟨rfl, rfl⟩

/-- C8 (amended): `count()` returns the file size divided by the record
width for a readable file, and returns 0 — not a distinct `IOFault` —
whenever `fopen` fails, both when the file does not exist and when it
exists but cannot be opened. -/
theorem claim_C8 :
    (∀ w : Nat, file_count_records FileState.absent w = 0) ∧
    (∀ w : Nat, file_count_records FileState.unreadable w = 0) ∧
    (∀ (w : Nat) (bs : List Nat),
      file_count_records (FileState.present bs) w = bs.length / w) :=
⟨fun _ => rfl, fun _ => rfl, fun _ _ => rfl⟩

/-- C10: password verification round-trips (`verify_pass (obfuscate p) p`
is true for every plaintext), and verification depends only on the first
32 bytes of the zero-padded plaintext: plaintexts agreeing there verify
identically against any stored buffer. -/
theorem claim_C10 :
    (∀ p : List Nat, verify_pass (obfuscate p) p = true) ∧
    (∀ p q obf : List Nat, zeroPad32 p = zeroPad32 q →
      verify_pass obf p = verify_pass obf q) := by
  constructor
  · intro p
    simp [verify_pass]
  · intro p q obf h
    have hpad : ∀ (r : List Nat) (i : Nat), i < MAX_PASS →
        (zeroPad32 r).getD i 0 = r.getD i 0 := by
      intro r i hi
      unfold zeroPad32
      rw [List.getD_eq_getElem?_getD, List.getD_eq_getElem?_getD,
        List.getElem?_take, if_pos hi, List.getElem?_append]
      by_cases hlen : i < r.length
      · rw [if_pos hlen]
      · rw [if_neg hlen, List.getElem?_replicate,
          List.getElem?_eq_none (by omega)]
        by_cases hrep : i - r.length < MAX_PASS
        · rw [if_pos hrep]
          rfl
        · rw [if_neg hrep]
    have hobf : obfuscate p = obfuscate q := by
      unfold obfuscate
      refine List.map_congr_left ?_
      intro i hi
      have hi32 : i < MAX_PASS := by simpa using hi
      rw [← hpad p i hi32, ← hpad q i hi32, h]
    unfold verify_pass
    rw [hobf]

/-- C10 witness: the theorem applied to the concrete plaintexts `[5]`
and `[5, 0]`, which agree on their zero-padded 32-byte prefix. -/
theorem claim_C10_witness :
    zeroPad32 [5] = zeroPad32 [5, 0] ∧
    verify_pass (obfuscate [7]) [5] = verify_pass (obfuscate [7]) [5, 0] :=
⟨by decide, claim_C10.2 [5] [5, 0] (obfuscate [7]) (by decide)⟩

/-- C5 counterexample: `file_append` returns the C `int` result of the
`fwrite` call — `1` on success — and not the newly-assigned index: on a
store of 2 one-byte records the prior count is 2, yet the returned value
is 1. -/
theorem claim_C5_counterexample :
    (file_append (FileState.present [7, 8]) [9]).1 = 1 ∧
    file_count_records (FileState.present [7, 8]) 1 = 2 ∧
    (file_append (FileState.present [7, 8]) [9]).1 ≠
      file_count_records (FileState.present [7, 8]) 1 :=
⟨rfl, rfl, by decide⟩

/-- C5 (amended): a successful append writes the record at the end of
the file (creating the file when absent) and returns the success flag 1
(not the prior count); afterwards `count()` is `n + 1` and `readAt n`
returns the appended record, while every record at an index below `n` is
unchanged. -/
theorem claim_C5 (bs rec : List Nat) (w n : Nat) (hw : 0 < w)
    (hbs : bs.length = n * w) (hrec : rec.length = w) :
    (file_append (FileState.present bs) rec).1 = 1 ∧
    (file_append (FileState.present bs) rec).2 = FileState.present (bs ++ rec) ∧
    file_append FileState.absent rec = (1, FileState.present rec) ∧
    file_count_records (FileState.present bs) w = n ∧
    file_count_records (file_append (FileState.present bs) rec).2 w = n + 1 ∧
    file_read_at (file_append (FileState.present bs) rec).2 w n = some rec ∧
    (∀ i, i < n →
      file_read_at (file_append (FileState.present bs) rec).2 w i =
        file_read_at (FileState.present bs) w i) := by
  have hcount : bs.length / w = n := by
    rw [hbs, Nat.mul_div_cancel _ hw]
  refine ⟨rfl, rfl, rfl, hcount, ?_, ?_, ?_⟩
  · show (bs ++ rec).length / w = n + 1
    rw [List.length_append, hbs, hrec, ← Nat.succ_mul, Nat.mul_div_cancel _ hw]
  · show file_read_at (FileState.present (bs ++ rec)) w n = some rec
    simp only [file_read_at]
    rw [if_pos (by rw [List.length_append, hbs, hrec, Nat.succ_mul])]
    rw [List.drop_append_of_le_length hbs.ge, List.drop_of_length_le hbs.le,
      List.nil_append, List.take_of_length_le hrec.le]
  · intro i hi
    have hio : (i + 1) * w ≤ bs.length := by
      rw [hbs]
      exact Nat.mul_le_mul_right w hi
    have hsm : i * w + w ≤ bs.length := by
      rw [← Nat.succ_mul]
      exact hio
    show file_read_at (FileState.present (bs ++ rec)) w i =
      file_read_at (FileState.present bs) w i
    simp only [file_read_at]
    rw [if_pos (by rw [List.length_append]; omega), if_pos hio,
      List.drop_append_of_le_length (by omega),
      List.take_append_of_le_length (by rw [List.length_drop]; omega)]

/-- C5 witness: the theorem applied to the concrete 2-record store
`[1, 2, 3, 4]` of width 2 with appended record `[9, 9]`. -/
theorem claim_C5_witness :
    0 < 2 ∧ ([1, 2, 3, 4] : List Nat).length = 2 * 2 ∧
    ([9, 9] : List Nat).length = 2 ∧
    ((file_append (FileState.present [1, 2, 3, 4]) [9, 9]).1 = 1 ∧
     (file_append (FileState.present [1, 2, 3, 4]) [9, 9]).2 =
       FileState.present ([1, 2, 3, 4] ++ [9, 9]) ∧
     file_append FileState.absent [9, 9] = (1, FileState.present [9, 9]) ∧
     file_count_records (FileState.present [1, 2, 3, 4]) 2 = 2 ∧
     file_count_records (file_append (FileState.present [1, 2, 3, 4]) [9, 9]).2 2 = 2 + 1 ∧
     file_read_at (file_append (FileState.present [1, 2, 3, 4]) [9, 9]).2 2 2 = some [9, 9] ∧
     (∀ i, i < 2 →
       file_read_at (file_append (FileState.present [1, 2, 3, 4]) [9, 9]).2 2 i =
         file_read_at (FileState.present [1, 2, 3, 4]) 2 i)) :=
⟨by decide, by decide, by decide,
 claim_C5 [1, 2, 3, 4] [9, 9] 2 2 (by decide) (by decide) (by decide)⟩

/-- C6 counterexample: `file_write_at` is not bounds-checked.  On a
one-record store (width 1, count 1), writing at index 2 does not fail
with `OutOfRange`: it seeks past end-of-file and succeeds, zero-filling
the gap and growing the store to 3 records. -/
theorem claim_C6_counterexample :
    file_count_records (FileState.present [7]) 1 = 1 ∧
    file_write_at (FileState.present [7]) 1 2 [9] =
      some (FileState.present [7, 0, 9]) ∧
    file_count_records (FileState.present [7, 0, 9]) 1 = 3 :=
⟨rfl, by simp [file_write_at, writeBytesAt], rfl⟩

/-- C6 (amended): `readAt` fails for every index at or beyond the
current count (the sole `fread` of a full record fails there), but
`writeAt` performs no bounds check: on an existing file it always
succeeds, overwriting in place (count preserved) when the record fits
inside the file, and extending the file (zero-filling any gap) when the
index is at or past the end; it fails only when the file cannot be
opened. -/
theorem claim_C6 (bs rec : List Nat) (w index : Nat) (hw : 0 < w) :
    (file_count_records (FileState.present bs) w ≤ index →
      file_read_at (FileState.present bs) w index = none) ∧
    file_read_at FileState.absent w index = none ∧
    file_write_at (FileState.present bs) w index rec =
      some (FileState.present (writeBytesAt bs (index * w) rec)) ∧
    ((index + 1) * w ≤ bs.length → rec.length = w →
      (writeBytesAt bs (index * w) rec).length = bs.length) ∧
    (bs.length ≤ index * w →
      writeBytesAt bs (index * w) rec =
        bs ++ List.replicate (index * w - bs.length) 0 ++ rec) ∧
    file_write_at FileState.absent w index rec = none := by
  refine ⟨?_, rfl, rfl, ?_, ?_, rfl⟩
  · intro hidx
    have hlt : bs.length < (index + 1) * w :=
      (Nat.div_lt_iff_lt_mul hw).mp (Nat.lt_succ_of_le hidx)
    simp only [file_read_at]
    rw [if_neg (Nat.not_le.mpr hlt)]
  · intro hin hrec
    have hoff : index * w + w ≤ bs.length := by
      rw [← Nat.succ_mul]
      exact hin
    unfold writeBytesAt
    simp only [List.length_append, List.length_take, List.length_replicate,
      List.length_drop, hrec]
    omega
  · intro hout
    unfold writeBytesAt
    rw [List.take_of_length_le hout, List.drop_eq_nil_of_le (by omega),
      List.append_nil]

/-- C6 witness: the theorem applied to the concrete store `[1, 2, 3, 4]`
of width 2 (count 2) at the in-range index 1 and bound checks at the
out-of-range index 2. -/
theorem claim_C6_witness :
    0 < 2 ∧
    file_read_at (FileState.present [1, 2, 3, 4]) 2 2 = none ∧
    (writeBytesAt [1, 2, 3, 4] (1 * 2) [9, 9]).length =
      ([1, 2, 3, 4] : List Nat).length :=
⟨by decide, (claim_C6 [1, 2, 3, 4] [9, 9] 2 2 (by decide)).1 (by decide),
 (claim_C6 [1, 2, 3, 4] [9, 9] 2 1 (by decide)).2.2.2.1 (by decide) (by decide)⟩

/-- C9: a truncated trailing partial record is invisible: `count` is the
floor of size/width, `findFirst` only ever tests and returns complete
records below the count, and `readAt` only ever returns a complete
record below the count — never bytes of the partial tail. -/
theorem claim_C9 (bs : List Nat) (w : Nat) (hw : 0 < w) :
    file_count_records (FileState.present bs) w = bs.length / w ∧
    (∀ (pred : List Nat → Bool) (i : Nat) (r : List Nat),
      file_find_first (FileState.present bs) w pred = some (i, r) →
      i < bs.length / w ∧ r = (bs.drop (i * w)).take w ∧ r.length = w ∧
      pred r = true) ∧
    (∀ (i : Nat) (r : List Nat),
      file_read_at (FileState.present bs) w i = some r →
      (i + 1) * w ≤ bs.length ∧ i < bs.length / w ∧
      r = (bs.drop (i * w)).take w ∧ r.length = w) := by
  have hfull : ∀ i : Nat, i < bs.length / w → i * w + w ≤ bs.length := by
    intro i hi
    have := (Nat.le_div_iff_mul_le hw).mp (Nat.succ_le_of_lt hi)
    rw [Nat.succ_mul] at this
    exact this
  have hlen : ∀ i : Nat, i < bs.length / w →
      ((bs.drop (i * w)).take w).length = w := by
    intro i hi
    have := hfull i hi
    rw [List.length_take, List.length_drop]
    omega
  refine ⟨rfl, ?_, ?_⟩
  · intro pred i r hfind
    have hspec := findFirstAux_some pred (chunksOf w bs) 0 i r hfind
    obtain ⟨j, hj, hij, hget, hpr⟩ := hspec
    rw [chunksOf_length w hw] at hj
    have hij0 : i = j := by omega
    subst hij0
    have hr : r = (bs.drop (i * w)).take w := by
      rw [← hget, chunksOf_getD w hw bs i hj]
    exact ⟨hj, hr, hr ▸ hlen i hj, hpr⟩
  · intro i r hread
    simp only [file_read_at] at hread
    by_cases hc : (i + 1) * w ≤ bs.length
    · rw [if_pos hc] at hread
      have hi : i < bs.length / w := by
        have : i + 1 ≤ bs.length / w := (Nat.le_div_iff_mul_le hw).mpr hc
        omega
      have hr : r = (bs.drop (i * w)).take w := by
        injection hread with h2
        exact h2.symm
      exact ⟨hc, hi, hr, hr ▸ hlen i hi⟩
    · rw [if_neg hc] at hread
      exact absurd hread (by simp)

/-- C9 witness: the theorem applied to a concrete 5-byte file of width
2: the last byte is a partial tail, the count is 2, `findFirst` locates
the complete record `[3, 4]` at index 1, and `readAt 2` fails. -/
theorem claim_C9_witness :
    0 < 2 ∧
    file_count_records (FileState.present [1, 2, 3, 4, 5]) 2 = 2 ∧
    (1 < ([1, 2, 3, 4, 5] : List Nat).length / 2 ∧
      [3, 4] = (([1, 2, 3, 4, 5] : List Nat).drop (1 * 2)).take 2 ∧
      ([3, 4] : List Nat).length = 2 ∧
      (fun r : List Nat => decide (r = [3, 4])) [3, 4] = true) :=
⟨by decide, (claim_C9 [1, 2, 3, 4, 5] 2 (by decide)).1,
 (claim_C9 [1, 2, 3, 4, 5] 2 (by decide)).2.1
   (fun r : List Nat => decide (r = [3, 4])) 1 [3, 4]
   (by simp [file_find_first, findFirstAux,
     chunksOf_eq_cons 2 [1, 2, 3, 4, 5] (by decide) (by decide),
     chunksOf_eq_cons 2 [3, 4, 5] (by decide) (by decide),
     chunksOf_eq_nil 2 [5] (by decide)])⟩

/-- C3: adding a record whose key equals the key of a record already in
the store returns `DuplicateKey` and leaves the store exactly unchanged;
consequently key uniqueness is preserved by single adds and by any
sequence of adds, for both the student store and the course store. -/
theorem claim_C3 :
    (∀ (store : List Student) (s : Student), (∃ r ∈ store, r.id = s.id) →
      add_student store s = (.duplicateKey, store)) ∧
    (∀ (store : List Course) (c : Course), (∃ r ∈ store, r.code = c.code) →
      add_course store c = (.duplicateKey, store)) ∧
    (∀ (store : List Student) (s : Student), studentIdsUnique store →
      studentIdsUnique (add_student store s).2) ∧
    (∀ (store : List Course) (c : Course), courseCodesUnique store →
      courseCodesUnique (add_course store c).2) ∧
    (∀ (adds : List Student) (store : List Student), studentIdsUnique store →
      studentIdsUnique (adds.foldl (fun st r => (add_student st r).2) store)) ∧
    (∀ (adds : List Course) (store : List Course), courseCodesUnique store →
      courseCodesUnique (adds.foldl (fun st r => (add_course st r).2) store)) := by
  refine ⟨?_, ?_, add_student_preserves, add_course_preserves, ?_, ?_⟩
  · intro store s h
    unfold add_student
    rw [if_pos (by simpa [List.any_eq_true] using h)]
  · intro store c h
    unfold add_course
    rw [if_pos (by simpa [List.any_eq_true] using h)]
  · intro adds
    induction adds with
    | nil => exact fun store h => h
    | cons a t ih =>
      intro store h
      exact ih _ (add_student_preserves store a h)
  · intro adds
    induction adds with
    | nil => exact fun store h => h
    | cons a t ih =>
      intro store h
      exact ih _ (add_course_preserves store a h)

/-- C3 witness: the theorem applied to a concrete one-student store and
a duplicate id. -/
theorem claim_C3_witness :
    (∃ r ∈ [(⟨"S1", "N", "D", 241, "E"⟩ : Student)], r.id = "S1") ∧
    add_student [⟨"S1", "N", "D", 241, "E"⟩] ⟨"S1", "M", "C", 231, "F"⟩ =
      (.duplicateKey, [⟨"S1", "N", "D", 241, "E"⟩]) ∧
    studentIdsUnique [(⟨"S1", "N", "D", 241, "E"⟩ : Student)] ∧
    studentIdsUnique
      (add_student [⟨"S1", "N", "D", 241, "E"⟩] ⟨"S2", "M", "C", 231, "F"⟩).2 :=
⟨by decide, claim_C3.1 [⟨"S1", "N", "D", 241, "E"⟩] ⟨"S1", "M", "C", 231, "F"⟩
   (by decide),
 by simp [studentIdsUnique],
 claim_C3.2.2.1 [⟨"S1", "N", "D", 241, "E"⟩] ⟨"S2", "M", "C", 231, "F"⟩
   (by simp [studentIdsUnique])⟩

/-! Case lemmas for `enroll_student`. -/

theorem enroll_student_no_student {students : List Student}
    {courses : List Course} {enrs : List Enrollment} {sid code term : String}
    (h : ¬ ∃ r ∈ students, r.id = sid) :
    enroll_student students courses enrs sid code term =
      (.studentNotFound, enrs) := by
  unfold enroll_student
  rw [if_pos (by simpa [List.any_eq_true] using h)]

theorem enroll_student_no_course {students : List Student}
    {courses : List Course} {enrs : List Enrollment} {sid code term : String}
    (hs : ∃ r ∈ students, r.id = sid) (hc : ¬ ∃ c ∈ courses, c.code = code) :
    enroll_student students courses enrs sid code term =
      (.courseNotFound, enrs) := by
  unfold enroll_student
  rw [if_neg (by simpa [List.any_eq_true] using hs),
    if_pos (by simpa [List.any_eq_true] using hc)]

theorem enroll_student_dup {students : List Student}
    {courses : List Course} {enrs : List Enrollment} {sid code term : String}
    (hs : ∃ r ∈ students, r.id = sid) (hc : ∃ c ∈ courses, c.code = code)
    (hd : ∃ e ∈ enrs, e.studentId = sid ∧ e.courseCode = code ∧ e.term = term) :
    enroll_student students courses enrs sid code term =
      (.alreadyEnrolled, enrs) := by
  unfold enroll_student
  rw [if_neg (by simpa [List.any_eq_true] using hs),
    if_neg (by simpa [List.any_eq_true] using hc),
    if_pos (by simpa [List.any_eq_true] using hd)]

theorem enroll_student_ok {students : List Student}
    {courses : List Course} {enrs : List Enrollment} {sid code term : String}
    (hs : ∃ r ∈ students, r.id = sid) (hc : ∃ c ∈ courses, c.code = code)
    (hd : ¬ ∃ e ∈ enrs, e.studentId = sid ∧ e.courseCode = code ∧ e.term = term) :
    enroll_student students courses enrs sid code term =
      (.enrolled, enrs ++ [⟨sid, code, term, "NA"⟩]) := by
  unfold enroll_student
  rw [if_neg (by simpa [List.any_eq_true] using hs),
    if_neg (by simpa [List.any_eq_true] using hc),
    if_neg (by simpa [List.any_eq_true] using hd)]

/-- C4: the enroll operation appends the new enrollment (grade "NA")
exactly when the student id resolves, the course code resolves, and no
enrollment with the same composite key (studentId, courseCode, term)
exists; in every other case the enrollment store is unchanged.  In
particular, immediately re-enrolling the same key is rejected as
`alreadyEnrolled` with the store unchanged. -/
theorem claim_C4 (students : List Student) (courses : List Course)
    (enrs : List Enrollment) (sid code term : String) :
    ((enroll_student students courses enrs sid code term).1 = .enrolled ↔
      ((∃ r ∈ students, r.id = sid) ∧ (∃ c ∈ courses, c.code = code) ∧
       ¬ ∃ e ∈ enrs, e.studentId = sid ∧ e.courseCode = code ∧ e.term = term)) ∧
    ((enroll_student students courses enrs sid code term).1 = .enrolled →
      (enroll_student students courses enrs sid code term).2 =
        enrs ++ [⟨sid, code, term, "NA"⟩]) ∧
    ((enroll_student students courses enrs sid code term).1 ≠ .enrolled →
      (enroll_student students courses enrs sid code term).2 = enrs) ∧
    ((enroll_student students courses enrs sid code term).1 = .enrolled →
      enroll_student students courses
        (enroll_student students courses enrs sid code term).2 sid code term =
        (.alreadyEnrolled,
          (enroll_student students courses enrs sid code term).2)) := by
  by_cases hs : ∃ r ∈ students, r.id = sid
  · by_cases hc : ∃ c ∈ courses, c.code = code
    · by_cases hd : ∃ e ∈ enrs, e.studentId = sid ∧ e.courseCode = code ∧ e.term = term
      · rw [enroll_student_dup hs hc hd]
        refine ⟨by simp [hs, hc, hd], by simp, fun _ => rfl, by simp⟩
      · rw [enroll_student_ok hs hc hd]
        refine ⟨by simp [hs, hc, hd], fun _ => rfl, by simp, fun _ => ?_⟩
        exact enroll_student_dup hs hc
          ⟨⟨sid, code, term, "NA"⟩, by simp, rfl, rfl, rfl⟩
    · rw [enroll_student_no_course hs hc]
      refine ⟨by simp [hc], by simp, fun _ => rfl, by simp⟩
  · rw [enroll_student_no_student hs]
    refine ⟨by simp [hs], by simp, fun _ => rfl, by simp⟩

/-- C4 witness: the theorem applied to a concrete store: the first
enroll succeeds and appends the "NA"-graded record, the second enroll of
the same (studentId, courseCode, term) is rejected with the store
unchanged. -/
theorem claim_C4_witness :
    (enroll_student [⟨"S1", "N", "D", 241, "E"⟩] [⟨"C1", "T", 3, "D", ""⟩]
        [] "S1" "C1" "T1").2 = [] ++ [⟨"S1", "C1", "T1", "NA"⟩] ∧
    enroll_student [⟨"S1", "N", "D", 241, "E"⟩] [⟨"C1", "T", 3, "D", ""⟩]
        (enroll_student [⟨"S1", "N", "D", 241, "E"⟩] [⟨"C1", "T", 3, "D", ""⟩]
          [] "S1" "C1" "T1").2 "S1" "C1" "T1" =
      (.alreadyEnrolled,
        (enroll_student [⟨"S1", "N", "D", 241, "E"⟩] [⟨"C1", "T", 3, "D", ""⟩]
          [] "S1" "C1" "T1").2) :=
⟨(claim_C4 [⟨"S1", "N", "D", 241, "E"⟩] [⟨"C1", "T", 3, "D", ""⟩]
    [] "S1" "C1" "T1").2.1 (by decide),
 (claim_C4 [⟨"S1", "N", "D", 241, "E"⟩] [⟨"C1", "T", 3, "D", ""⟩]
    [] "S1" "C1" "T1").2.2.2 (by decide)⟩

/-! Scenario stores of the spec's testable properties: two 3-credit
courses and student S1 with grades A and B+ in term T1. -/

def scenarioCourses : List Course :=
[⟨"C1", "Course 1", 3, "D", ""⟩, ⟨"C2", "Course 2", 3, "D", ""⟩]

def scenarioEnrollments : List Enrollment :=
[⟨"S1", "C1", "T1", "A"⟩, ⟨"S1", "C2", "T1", "B+"⟩]

theorem scenario_findCourse_C1 :
    findCourse scenarioCourses "C1" = some ⟨"C1", "Course 1", 3, "D", ""⟩ := by
  simp [findCourse, scenarioCourses]

theorem scenario_findCourse_C2 :
    findCourse scenarioCourses "C2" = some ⟨"C2", "Course 2", 3, "D", ""⟩ := by
  simp [findCourse, scenarioCourses]

theorem scenario_gp_A : grade_to_points "A" = 4 := by
  simp [grade_to_points]

theorem scenario_gp_Bp : grade_to_points "B+" = 33/10 := by
  simp [grade_to_points]

theorem scenario_transcriptTotals :
    transcriptTotals scenarioCourses scenarioEnrollments "S1" = (6, 219/10) := by
  simp only [transcriptTotals, scenarioEnrollments, List.foldl]
  rw [show transcriptStep scenarioCourses "S1" (0, 0) ⟨"S1", "C1", "T1", "A"⟩ =
      (3, 12) by
    simp [transcriptStep, scenario_findCourse_C1, scenario_gp_A]
    norm_num]
  rw [show transcriptStep scenarioCourses "S1" (3, 12) ⟨"S1", "C2", "T1", "B+"⟩ =
      (6, 219/10) by
    simp [transcriptStep, scenario_findCourse_C2, scenario_gp_Bp]
    norm_num]

/-- C1: the transcript accumulates `(credit, points*credit)` exactly
over the student's enrollments, in store order, whose grade is valid
(and whose course resolves); when the accumulated credits are positive
the CGPA is totalPoints/totalCredits, otherwise the result is the
distinct `noGradedCredits` state.  The spec's scenario — S1 with
(A, 3 cr) and (B+, 3 cr) — yields CGPA (4*3 + 3.3*3)/6 = 3.65 = 73/20. -/
theorem claim_C1 (courses : List Course) (enrs : List Enrollment)
    (sid : String) :
    (transcriptTotals courses enrs sid).1 =
      ((enrs.filter (fun e => transcriptRelevant courses sid e)).map
        (creditOf courses)).sum ∧
    (transcriptTotals courses enrs sid).2 =
      ((enrs.filter (fun e => transcriptRelevant courses sid e)).map
        (fun e => grade_to_points e.grade * creditOf courses e)).sum ∧
    (∀ e ∈ enrs.filter (fun e => transcriptRelevant courses sid e),
      e.studentId = sid ∧ 0 ≤ grade_to_points e.grade) ∧
    (0 < (transcriptTotals courses enrs sid).1 →
      transcript_for_student courses enrs sid =
        .cgpa ((transcriptTotals courses enrs sid).2 /
          (transcriptTotals courses enrs sid).1)) ∧
    (¬ 0 < (transcriptTotals courses enrs sid).1 →
      transcript_for_student courses enrs sid = .noGradedCredits) ∧
    (∀ q : ℚ, CgpaResult.noGradedCredits ≠ CgpaResult.cgpa q) ∧
    transcript_for_student scenarioCourses scenarioEnrollments "S1" =
      .cgpa (73/20) := by
  have htot := transcriptTotals_spec courses sid enrs (0, 0)
  refine ⟨?_, ?_, ?_, ?_, ?_, by simp, ?_⟩
  · rw [transcriptTotals, htot]
    simp
  · rw [transcriptTotals, htot]
    simp
  · intro e he
    rw [List.mem_filter] at he
    have hrel : transcriptRelevant courses sid e := by simpa using he.2
    exact ⟨hrel.1, hrel.2.2⟩
  · intro hpos
    rw [transcript_for_student, if_pos hpos]
  · intro hpos
    rw [transcript_for_student, if_neg hpos]
  · rw [transcript_for_student, scenario_transcriptTotals]
    norm_num

/-- C1 witness: the theorem applied to the scenario stores; the positive
total-credits hypothesis is discharged by evaluation (totals = (6, 21.9)),
giving CGPA 21.9/6 = 3.65. -/
theorem claim_C1_witness :
    0 < (transcriptTotals scenarioCourses scenarioEnrollments "S1").1 ∧
    transcript_for_student scenarioCourses scenarioEnrollments "S1" =
      .cgpa ((transcriptTotals scenarioCourses scenarioEnrollments "S1").2 /
        (transcriptTotals scenarioCourses scenarioEnrollments "S1").1) :=
⟨by rw [scenario_transcriptTotals]; norm_num,
 (claim_C1 scenarioCourses scenarioEnrollments "S1").2.2.2.1
   (by rw [scenario_transcriptTotals]; norm_num)⟩

/-! ## Leaderboard accumulation lemmas -/

/-- An enrollment that contributes to the leaderboard for a term: the
term matches, the course resolves, and the grade is not skipped as
invalid (`gp < 0` is the skip condition in the source). -/
def leaderboardRelevant (courses : List Course) (term : String)
    (e : Enrollment) : Prop :=
e.term = term ∧ (findCourse courses e.courseCode).isSome ∧
  ¬ grade_to_points e.grade < 0

instance (courses : List Course) (term : String) (e : Enrollment) :
    Decidable (leaderboardRelevant courses term e) := by
  unfold leaderboardRelevant
  infer_instance

/-- First accumulator for a student id, as produced by the find-by-sid
loop of `gpa_leaderboard`. -/
def lookupAcc (accs : List GpaAcc) (sid : String) : Option GpaAcc :=
accs.find? (fun a => a.sid = sid)

/-- The total `points * credit` a student accumulates over an
enrollment list for a term. -/
def sumPts (courses : List Course) (enrs : List Enrollment) (term : String)
    (sid : String) : ℚ :=
((enrs.filter (fun e =>
    e.studentId = sid ∧ leaderboardRelevant courses term e)).map
  (fun e => grade_to_points e.grade * creditOf courses e)).sum

/-- The total credit a student accumulates over an enrollment list for
a term. -/
def sumCred (courses : List Course) (enrs : List Enrollment) (term : String)
    (sid : String) : ℚ :=
((enrs.filter (fun e =>
    e.studentId = sid ∧ leaderboardRelevant courses term e)).map
  (creditOf courses)).sum

/-- A student has at least one contributing enrollment. -/
def hasRelevant (courses : List Course) (enrs : List Enrollment)
    (term : String) (sid : String) : Prop :=
∃ e ∈ enrs, e.studentId = sid ∧ leaderboardRelevant courses term e

instance (courses : List Course) (enrs : List Enrollment) (term sid : String) :
    Decidable (hasRelevant courses enrs term sid) := by
  unfold hasRelevant
  infer_instance

theorem leaderboardStep_relevant (courses : List Course) (term : String)
    (accs : List GpaAcc) (e : Enrollment)
    (hrel : leaderboardRelevant courses term e) :
    leaderboardStep courses term accs e =
      bumpFirst accs e.studentId
        (grade_to_points e.grade * creditOf courses e) (creditOf courses e) := by
  obtain ⟨h1, h2, h3⟩ := hrel
  obtain ⟨c, hc⟩ := Option.isSome_iff_exists.mp h2
  have hcred : creditOf courses e = c.credit := by
    unfold creditOf
    rw [hc]
  unfold leaderboardStep
  rw [if_pos h1, hc, hcred]
  simp only [if_neg h3]

theorem leaderboardStep_irrelevant (courses : List Course) (term : String)
    (accs : List GpaAcc) (e : Enrollment)
    (hrel : ¬ leaderboardRelevant courses term e) :
    leaderboardStep courses term accs e = accs := by
  unfold leaderboardStep
  by_cases h1 : e.term = term
  · rw [if_pos h1]
    match hfc : findCourse courses e.courseCode with
    | some c =>
      have h3 : grade_to_points e.grade < 0 := by
        by_contra h3
        exact hrel ⟨h1, by simp [hfc], h3⟩
      simp only [if_pos h3]
    | none => rfl
  · rw [if_neg h1]

theorem bumpFirst_lookup_same :
    ∀ (accs : List GpaAcc) (sid : String) (dp dc : ℚ),
      lookupAcc (bumpFirst accs sid dp dc) sid =
        some (match lookupAcc accs sid with
              | some a => ⟨a.sid, a.pts + dp, a.cred + dc⟩
              | none => ⟨sid, dp, dc⟩) := by
  intro accs
  induction accs with
  | nil =>
    intro sid dp dc
    simp [bumpFirst, lookupAcc]
  | cons a rest ih =>
    intro sid dp dc
    by_cases ha : a.sid = sid
    · rw [bumpFirst, if_pos ha]
      unfold lookupAcc
      rw [List.find?_cons_of_pos _ (by simpa using ha),
        List.find?_cons_of_pos _ (by simpa using ha)]
    · rw [bumpFirst, if_neg ha]
      unfold lookupAcc
      rw [List.find?_cons_of_neg _ (by simpa using ha),
        List.find?_cons_of_neg _ (by simpa using ha)]
      exact ih sid dp dc

theorem bumpFirst_lookup_other :
    ∀ (accs : List GpaAcc) (sid sid2 : String) (dp dc : ℚ), sid2 ≠ sid →
      lookupAcc (bumpFirst accs sid dp dc) sid2 = lookupAcc accs sid2 := by
  intro accs
  induction accs with
  | nil =>
    intro sid sid2 dp dc hne
    unfold lookupAcc bumpFirst
    rw [List.find?_cons_of_neg _
        (by simpa using fun h : sid = sid2 => hne h.symm),
      List.find?_nil]
  | cons a rest ih =>
    intro sid sid2 dp dc hne
    by_cases ha : a.sid = sid
    · have ha2 : ¬ a.sid = sid2 := by
        rw [ha]
        exact fun h => hne h.symm
      rw [bumpFirst, if_pos ha]
      unfold lookupAcc
      rw [List.find?_cons_of_neg _ (by simpa using ha2),
        List.find?_cons_of_neg _ (by simpa using ha2)]
    · rw [bumpFirst, if_neg ha]
      unfold lookupAcc
      by_cases ha2 : a.sid = sid2
      · rw [List.find?_cons_of_pos _ (by simpa using ha2),
          List.find?_cons_of_pos _ (by simpa using ha2)]
      · rw [List.find?_cons_of_neg _ (by simpa using ha2),
          List.find?_cons_of_neg _ (by simpa using ha2)]
        exact ih sid sid2 dp dc hne

theorem bumpFirst_sids :
    ∀ (accs : List GpaAcc) (sid : String) (dp dc : ℚ),
      (bumpFirst accs sid dp dc).map GpaAcc.sid =
        if accs.any (fun a => a.sid = sid) then accs.map GpaAcc.sid
        else accs.map GpaAcc.sid ++ [sid] := by
  intro accs
  induction accs with
  | nil =>
    intro sid dp dc
    simp [bumpFirst]
  | cons a rest ih =>
    intro sid dp dc
    by_cases ha : a.sid = sid
    · rw [bumpFirst, if_pos ha]
      rw [if_pos (by simp [List.any_cons, ha])]
      simp
    · rw [bumpFirst, if_neg ha]
      have hany : (a :: rest).any (fun x => x.sid = sid) =
          rest.any (fun x => x.sid = sid) := by
        simp [List.any_cons, ha]
      rw [hany, List.map_cons, ih sid dp dc]
      by_cases hr : rest.any (fun x => x.sid = sid)
      · rw [if_pos hr, if_pos hr, List.map_cons]
      · rw [if_neg hr, if_neg hr, List.map_cons, List.cons_append]

theorem bumpFirst_nodup (accs : List GpaAcc) (sid : String) (dp dc : ℚ)
    (h : (accs.map GpaAcc.sid).Nodup) :
    ((bumpFirst accs sid dp dc).map GpaAcc.sid).Nodup := by
  rw [bumpFirst_sids]
  by_cases hany : accs.any (fun a => a.sid = sid)
  · rw [if_pos hany]
    exact h
  · rw [if_neg hany]
    simp only [List.any_eq_true, decide_eq_true_eq, not_exists] at hany
    refine List.Nodup.append h (List.nodup_singleton _) ?_
    intro x hx hx2
    simp only [List.mem_singleton] at hx2
    subst hx2
    obtain ⟨a, ha, rfl⟩ := List.mem_map.mp hx
    exact hany a ⟨ha, rfl⟩

theorem leaderboardAccum_aux_nodup (courses : List Course) (term : String) :
    ∀ (enrs : List Enrollment) (accs : List GpaAcc),
      (accs.map GpaAcc.sid).Nodup →
      ((List.foldl (leaderboardStep courses term) accs enrs).map
        GpaAcc.sid).Nodup := by
  intro enrs
  induction enrs with
  | nil => exact fun accs h => h
  | cons e t ih =>
    intro accs h
    rw [List.foldl_cons]
    by_cases hrel : leaderboardRelevant courses term e
    · rw [leaderboardStep_relevant courses term accs e hrel]
      exact ih _ (bumpFirst_nodup accs e.studentId _ _ h)
    · rw [leaderboardStep_irrelevant courses term accs e hrel]
      exact ih _ h

/-- The sids of the accumulator list are pairwise distinct. -/
theorem leaderboardAccum_nodup (courses : List Course)
    (enrs : List Enrollment) (term : String) :
    ((leaderboardAccum courses enrs term).map GpaAcc.sid).Nodup :=
leaderboardAccum_aux_nodup courses term enrs [] (by simp)

/-- Characterization of the accumulation scan: the accumulator a student
id ends up with is its prior accumulator (if any) bumped by the total
`(points*credit, credit)` of the student's contributing enrollments; a
student with no contributing enrollment and no prior accumulator stays
absent. -/
theorem leaderboardAccum_lookup (courses : List Course) (term : String) :
    ∀ (enrs : List Enrollment) (accs : List GpaAcc) (sid : String),
      lookupAcc (List.foldl (leaderboardStep courses term) accs enrs) sid =
        match lookupAcc accs sid with
        | some a => some ⟨a.sid, a.pts + sumPts courses enrs term sid,
            a.cred + sumCred courses enrs term sid⟩
        | none =>
          if hasRelevant courses enrs term sid then
            some ⟨sid, sumPts courses enrs term sid,
              sumCred courses enrs term sid⟩
          else none := by
  intro enrs
  induction enrs with
  | nil =>
    intro accs sid
    simp only [List.foldl_nil, sumPts, sumCred, hasRelevant, List.filter_nil,
      List.map_nil, List.sum_nil, add_zero]
    match h : lookupAcc accs sid with
    | some a => simp
    | none => simp
  | cons e t ih =>
    intro accs sid
    rw [List.foldl_cons]
    by_cases hkeep : e.studentId = sid ∧ leaderboardRelevant courses term e
    · obtain ⟨hsid, hrel⟩ := hkeep
      rw [leaderboardStep_relevant courses term accs e hrel, hsid]
      rw [ih (bumpFirst accs sid
          (grade_to_points e.grade * creditOf courses e)
          (creditOf courses e)) sid]
      rw [bumpFirst_lookup_same accs sid _ _]
      have hsum1 : sumPts courses (e :: t) term sid =
          grade_to_points e.grade * creditOf courses e +
            sumPts courses t term sid := by
        unfold sumPts
        rw [List.filter_cons_of_pos (by simp [hsid, hrel]), List.map_cons,
          List.sum_cons]
      have hsum2 : sumCred courses (e :: t) term sid =
          creditOf courses e + sumCred courses t term sid := by
        unfold sumCred
        rw [List.filter_cons_of_pos (by simp [hsid, hrel]), List.map_cons,
          List.sum_cons]
      match hl : lookupAcc accs sid with
      | some a =>
        simp only [hl, hsum1, hsum2]
        rw [add_assoc, add_assoc]
      | none =>
        have hhr : hasRelevant courses (e :: t) term sid := ⟨e, by simp, hsid, hrel⟩
        simp only [hl, if_pos hhr, hsum1, hsum2]
    · have hsum1 : sumPts courses (e :: t) term sid = sumPts courses t term sid := by
        unfold sumPts
        rw [List.filter_cons_of_neg (by simpa using hkeep)]
      have hsum2 : sumCred courses (e :: t) term sid = sumCred courses t term sid := by
        unfold sumCred
        rw [List.filter_cons_of_neg (by simpa using hkeep)]
      have hhr : hasRelevant courses (e :: t) term sid ↔
          hasRelevant courses t term sid := by
        unfold hasRelevant
        constructor
        · rintro ⟨x, hx, hxp⟩
          rcases List.mem_cons.mp hx with rfl | hx2
          · exact absurd hxp hkeep
          · exact ⟨x, hx2, hxp⟩
        · rintro ⟨x, hx, hxp⟩
          exact ⟨x, List.mem_cons_of_mem _ hx, hxp⟩
      by_cases hrel : leaderboardRelevant courses term e
      · have hne : sid ≠ e.studentId := by
          intro h
          exact hkeep ⟨h.symm, hrel⟩
        rw [leaderboardStep_relevant courses term accs e hrel]
        rw [ih (bumpFirst accs e.studentId
            (grade_to_points e.grade * creditOf courses e)
            (creditOf courses e)) sid]
        rw [bumpFirst_lookup_other accs e.studentId sid _ _ hne]
        simp only [hsum1, hsum2, hhr]
      · rw [leaderboardStep_irrelevant courses term accs e hrel]
        rw [ih accs sid]
        simp only [hsum1, hsum2, hhr]

/-! ## Bubble-sort correctness -/

theorem bubblePass_eq_of_short (l : List GpaAcc)
    (h : ∀ (a b : GpaAcc) (rest : List GpaAcc), l = a :: b :: rest → False) :
    bubblePass l = l := by
  match l with
  | [] => simp [bubblePass]
  | [a] => simp [bubblePass]
  | a :: b :: rest => exact absurd rfl (h a b rest)

theorem bubblePass_cons_cons (a b : GpaAcc) (rest : List GpaAcc) :
    bubblePass (a :: b :: rest) =
      if gpaOf a < gpaOf b then b :: bubblePass (a :: rest)
      else a :: bubblePass (b :: rest) := by
  rw [bubblePass]

theorem bubblePass_perm : ∀ l : List GpaAcc, (bubblePass l).Perm l := by
  intro l
  induction l using bubblePass.induct with
  | case1 a b rest h ih =>
    rw [bubblePass_cons_cons, if_pos h]
    exact (ih.cons b).trans (List.Perm.swap a b rest)
  | case2 a b rest h ih =>
    rw [bubblePass_cons_cons, if_neg h]
    exact ih.cons a
  | case3 l h =>
    rw [bubblePass_eq_of_short l h]

theorem bubblePass_min_last : ∀ l : List GpaAcc, l ≠ [] →
    ∃ ys m, bubblePass l = ys ++ [m] ∧ ∀ x ∈ l, gpaOf m ≤ gpaOf x := by
  intro l
  induction l using bubblePass.induct with
  | case1 a b rest h ih =>
    intro _
    obtain ⟨ys, m, heq, hmin⟩ := ih (by simp)
    refine ⟨b :: ys, m, ?_, ?_⟩
    · rw [bubblePass_cons_cons, if_pos h, heq, List.cons_append]
    · intro x hx
      rcases List.mem_cons.mp hx with rfl | hx2
      · exact hmin x (by simp)
      rcases List.mem_cons.mp hx2 with rfl | hx3
      · exact le_trans (hmin a (by simp)) (le_of_lt h)
      · exact hmin x (by simp [hx3])
  | case2 a b rest h ih =>
    intro _
    obtain ⟨ys, m, heq, hmin⟩ := ih (by simp)
    refine ⟨a :: ys, m, ?_, ?_⟩
    · rw [bubblePass_cons_cons, if_neg h, heq, List.cons_append]
    · intro x hx
      rcases List.mem_cons.mp hx with rfl | hx2
      · exact le_trans (hmin b (by simp)) (not_lt.mp h)
      · exact hmin x hx2
  | case3 l h =>
    intro hne
    cases l with
    | nil => exact absurd rfl hne
    | cons a rest =>
      cases rest with
      | nil =>
        refine ⟨[], a, by simp [bubblePass], ?_⟩
        intro x hx
        rcases List.mem_singleton.mp hx with rfl
        exact le_refl _
      | cons b rest2 => exact absurd rfl (h a b rest2)

theorem bubblePass_append_min : ∀ (l : List GpaAcc) (m : GpaAcc),
    (∀ x ∈ l, gpaOf m ≤ gpaOf x) →
    bubblePass (l ++ [m]) = bubblePass l ++ [m] := by
  intro l
  induction l using bubblePass.induct with
  | case1 a b rest h ih =>
    intro m hmin
    rw [List.cons_append, List.cons_append, bubblePass_cons_cons, if_pos h,
      bubblePass_cons_cons, if_pos h, ← List.cons_append,
      ih m (fun x hx => hmin x (by
        rcases List.mem_cons.mp hx with rfl | hx2
        · simp
        · simp [hx2])), List.cons_append]
  | case2 a b rest h ih =>
    intro m hmin
    rw [List.cons_append, List.cons_append, bubblePass_cons_cons, if_neg h,
      bubblePass_cons_cons, if_neg h, ← List.cons_append,
      ih m (fun x hx => hmin x (by
        rcases List.mem_cons.mp hx with rfl | hx2
        · simp
        · simp [hx2])), List.cons_append]
  | case3 l h =>
    intro m hmin
    cases l with
    | nil => simp [bubblePass]
    | cons a rest =>
      cases rest with
      | nil =>
        show bubblePass (a :: m :: []) = bubblePass [a] ++ [m]
        rw [bubblePass_cons_cons, if_neg (not_lt.mpr (hmin a (by simp))),
          bubblePass_eq_of_short [m] (by intro x y r hxy; simp at hxy),
          bubblePass_eq_of_short [a] (by intro x y r hxy; simp at hxy)]
        rfl
      | cons b rest2 => exact absurd rfl (h a b rest2)

theorem bubblePass_iterate_perm (k : Nat) :
    ∀ l : List GpaAcc, (bubblePass^[k] l).Perm l := by
  induction k with
  | zero => exact fun l => List.Perm.refl l
  | succ n ih =>
    intro l
    rw [Function.iterate_succ_apply]
    exact (ih (bubblePass l)).trans (bubblePass_perm l)

theorem bubblePass_iterate_append_min (k : Nat) :
    ∀ (l : List GpaAcc) (m : GpaAcc), (∀ x ∈ l, gpaOf m ≤ gpaOf x) →
      bubblePass^[k] (l ++ [m]) = bubblePass^[k] l ++ [m] := by
  induction k with
  | zero => exact fun l m _ => rfl
  | succ n ih =>
    intro l m hmin
    rw [Function.iterate_succ_apply, Function.iterate_succ_apply,
      bubblePass_append_min l m hmin]
    exact ih (bubblePass l) m
      (fun x hx => hmin x ((bubblePass_perm l).mem_iff.mp hx))

theorem bubblePass_iterate_sorted : ∀ (n : Nat) (l : List GpaAcc),
    l.length ≤ n →
    List.Chain' (fun a b => gpaOf b ≤ gpaOf a) (bubblePass^[n] l) := by
  intro n
  induction n with
  | zero =>
    intro l hl
    rw [List.length_eq_zero.mp (Nat.le_zero.mp hl)]
    exact List.chain'_nil
  | succ n ih =>
    intro l hl
    rw [Function.iterate_succ_apply]
    by_cases hnil : l = []
    · subst hnil
      rw [bubblePass_eq_of_short [] (by intro x y r hxy; simp at hxy)]
      exact ih [] (by simp)
    · obtain ⟨ys, m, heq, hmin⟩ := bubblePass_min_last l hnil
      have hysmin : ∀ x ∈ ys, gpaOf m ≤ gpaOf x := by
        intro x hx
        refine hmin x ?_
        have : x ∈ ys ++ [m] := by simp [hx]
        rw [← heq] at this
        exact (bubblePass_perm l).mem_iff.mp this
      rw [heq, bubblePass_iterate_append_min n ys m hysmin]
      have hyslen : ys.length ≤ n := by
        have h1 : (bubblePass l).length = l.length :=
          (bubblePass_perm l).length_eq
        rw [heq, List.length_append] at h1
        simp only [List.length_singleton] at h1
        omega
      rw [List.chain'_append]
      refine ⟨ih ys hyslen, List.chain'_singleton m, ?_⟩
      intro x hx y hy
      simp only [List.head?_cons, Option.mem_def, Option.some.injEq] at hy
      subst hy
      have hxmem : x ∈ ys :=
        (bubblePass_iterate_perm n ys).mem_iff.mp (List.mem_of_mem_getLast? hx)
      exact hysmin x hxmem

theorem lookupAcc_of_mem_nodup :
    ∀ accs : List GpaAcc, (accs.map GpaAcc.sid).Nodup →
      ∀ a ∈ accs, lookupAcc accs a.sid = some a := by
  intro accs
  induction accs with
  | nil =>
    intro _ a ha
    simp at ha
  | cons b rest ih =>
    intro hnd a ha
    rcases List.mem_cons.mp ha with rfl | ha2
    · unfold lookupAcc
      rw [List.find?_cons_of_pos _ (by simp)]
    · have hbs : ¬ b.sid = a.sid := by
        rw [List.map_cons, List.nodup_cons] at hnd
        intro he
        exact hnd.1 (he ▸ List.mem_map_of_mem GpaAcc.sid ha2)
      unfold lookupAcc
      rw [List.find?_cons_of_neg _ (by simpa using hbs)]
      exact ih (by rw [List.map_cons, List.nodup_cons] at hnd; exact hnd.2) a ha2

/-- Scenario enrollments for the leaderboard: S1 with (A, 3cr) and
(B+, 3cr), S2 with (A, 3cr), all in term T1. -/
def scenarioLeaderEnrollments : List Enrollment :=
[⟨"S1", "C1", "T1", "A"⟩, ⟨"S1", "C2", "T1", "B+"⟩, ⟨"S2", "C1", "T1", "A"⟩]

theorem scenario_leaderboard :
    (gpa_leaderboard scenarioCourses scenarioLeaderEnrollments "T1").map
      GpaAcc.sid = ["S2", "S1"] := by
  have hacc : leaderboardAccum scenarioCourses scenarioLeaderEnrollments "T1" =
      [⟨"S1", 219/10, 6⟩, ⟨"S2", 12, 3⟩] := by
    simp only [leaderboardAccum, leaderboardStep, scenarioLeaderEnrollments,
      List.foldl, scenario_findCourse_C1, scenario_findCourse_C2,
      scenario_gp_A, scenario_gp_Bp]
    norm_num
    simp [bumpFirst]
    norm_num
  have hg1 : gpaOf (⟨"S1", 219/10, 6⟩ : GpaAcc) = 73/20 := by
    rw [gpaOf]
    norm_num
  have hg2 : gpaOf (⟨"S2", 12, 3⟩ : GpaAcc) = 4 := by
    rw [gpaOf]
    norm_num
  rw [gpa_leaderboard, hacc]
  simp only [List.length_cons, List.length_nil]
  simp only [Function.iterate_succ_apply, Function.iterate_zero_apply]
  rw [show bubblePass [⟨"S1", 219/10, 6⟩, ⟨"S2", 12, 3⟩] =
      [⟨"S2", 12, 3⟩, ⟨"S1", 219/10, 6⟩] by
    rw [bubblePass_cons_cons, if_pos (by rw [hg1, hg2]; norm_num),
      bubblePass_eq_of_short [⟨"S1", 219/10, 6⟩]
        (by intro x y r hxy; simp at hxy)]]
  rw [show bubblePass [⟨"S2", 12, 3⟩, ⟨"S1", 219/10, 6⟩] =
      [⟨"S2", 12, 3⟩, ⟨"S1", 219/10, 6⟩] by
    rw [bubblePass_cons_cons, if_neg (by rw [hg1, hg2]; norm_num),
      bubblePass_eq_of_short [⟨"S1", 219/10, 6⟩]
        (by intro x y r hxy; simp at hxy)]]
  simp

/-- C7: the leaderboard accumulates per-student `(points*credit, credit)`
exactly over the term's enrollments with a valid grade (and resolvable
course); each listed accumulator's GPA is points/credits (0 when credits
is 0); the output is the accumulator list sorted in descending GPA
order; a student with no contributing enrollment in the term never
enters the accumulator and is absent from the output.  The spec
scenario — S1 at GPA 3.65 (6 cr) and S2 at GPA 4.00 (3 cr) in term
T1 — ranks [S2, S1]. -/
theorem claim_C7 (courses : List Course) (enrs : List Enrollment)
    (term : String) :
    List.Chain' (fun a b => gpaOf b ≤ gpaOf a)
      (gpa_leaderboard courses enrs term) ∧
    (gpa_leaderboard courses enrs term).Perm
      (leaderboardAccum courses enrs term) ∧
    (∀ a ∈ gpa_leaderboard courses enrs term,
      a.pts = sumPts courses enrs term a.sid ∧
      a.cred = sumCred courses enrs term a.sid ∧
      gpaOf a = (if 0 < a.cred then a.pts / a.cred else 0) ∧
      hasRelevant courses enrs term a.sid) ∧
    (∀ sid : String, ¬ hasRelevant courses enrs term sid →
      sid ∉ (gpa_leaderboard courses enrs term).map GpaAcc.sid) ∧
    (gpa_leaderboard scenarioCourses scenarioLeaderEnrollments "T1").map
      GpaAcc.sid = ["S2", "S1"] := by
  have hperm : (gpa_leaderboard courses enrs term).Perm
      (leaderboardAccum courses enrs term) :=
    bubblePass_iterate_perm _ _
  have hmember : ∀ a ∈ gpa_leaderboard courses enrs term,
      a.pts = sumPts courses enrs term a.sid ∧
      a.cred = sumCred courses enrs term a.sid ∧
      gpaOf a = (if 0 < a.cred then a.pts / a.cred else 0) ∧
      hasRelevant courses enrs term a.sid := by
    intro a ha
    have hmem : a ∈ leaderboardAccum courses enrs term :=
      hperm.mem_iff.mp ha
    have hlk : lookupAcc (leaderboardAccum courses enrs term) a.sid = some a :=
      lookupAcc_of_mem_nodup _ (leaderboardAccum_nodup courses enrs term) a hmem
    have hchar := leaderboardAccum_lookup courses term enrs [] a.sid
    simp only [show lookupAcc [] a.sid = none from rfl] at hchar
    rw [show List.foldl (leaderboardStep courses term) [] enrs =
        leaderboardAccum courses enrs term from rfl, hlk] at hchar
    by_cases hhr : hasRelevant courses enrs term a.sid
    · rw [if_pos hhr] at hchar
      have ha2 := Option.some_inj.mp hchar
      exact ⟨congrArg GpaAcc.pts ha2, congrArg GpaAcc.cred ha2, rfl, hhr⟩
    · rw [if_neg hhr] at hchar
      exact absurd hchar (by simp)
  refine ⟨?_, hperm, hmember, ?_, scenario_leaderboard⟩
  · show List.Chain' _
      (bubblePass^[(leaderboardAccum courses enrs term).length]
        (leaderboardAccum courses enrs term))
    exact bubblePass_iterate_sorted _ _ (le_refl _)
  · intro sid hnr hmem
    obtain ⟨a, ha, rfl⟩ := List.mem_map.mp hmem
    exact hnr (hmember a ha).2.2.2

/-- C7 witness: the theorem applied at the scenario stores: student
"S3" has no enrollment in term T1 with a valid grade (indeed none at
all), so "S3" is absent from the leaderboard output. -/
theorem claim_C7_witness :
    ¬ hasRelevant scenarioCourses scenarioLeaderEnrollments "T1" "S3" ∧
    "S3" ∉ (gpa_leaderboard scenarioCourses scenarioLeaderEnrollments
      "T1").map GpaAcc.sid :=
⟨by decide,
 (claim_C7 scenarioCourses scenarioLeaderEnrollments "T1").2.2.2.1 "S3"
   (by decide)⟩

end UMS


